import Mathlib

/-!
Shallow embedding of the fediscripts instance-probing pipeline
(`poke_instance.py`, `fediserver.py`, `merge_csv.py`) together with proofs
of the behavioural claims about it.

Conventions used throughout:
* Python exceptions become explicit error values (`Except` / sum-like
  inductives); an uncaught Python exception that would crash the process is
  a distinguished error constructor.
* Network I/O is parameterised by an oracle argument (one outcome per
  attempt / per URL), so the control flow around the I/O is the code
  being modelled, while the I/O result itself is a parameter.
* The recursive retry in `fetch_url` is modelled with an explicit fuel
  argument so that the Python behaviour on a negative retry budget
  (unbounded recursion) is representable: `none` means the recursion
  never reached a base case within the given fuel.
-/

namespace Fediscripts

instance {ε α : Type} [DecidableEq ε] [DecidableEq α] : DecidableEq (Except ε α)
  | .ok a, .ok b =>
    if h : a = b then .isTrue (by rw [h]) else .isFalse (by simp [h])
  | .ok _, .error _ => .isFalse (by simp)
  | .error _, .ok _ => .isFalse (by simp)
  | .error a, .error b =>
    if h : a = b then .isTrue (by rw [h]) else .isFalse (by simp [h])

/-! ## Resilient fetch layer (`poke_instance.fetch_url`, identical copy in `det_lang.py`) -/

/-- Outcome of a single `urllib.request.urlopen` attempt, as seen by the
exception handlers in `fetch_url`. -/
inductive Outcome where
  | success (body : String)
  | httpError (code : Nat)
  | urlError
  | unicodeError
  | genError
deriving DecidableEq

/-- Result of `fetch_url`: either the decoded body or one of the
`RuntimeError` variants the function raises. -/
inductive FetchResult where
  | ok (body : String)
  | retriesExhausted
  | badURL
  | httpError (code : Nat)
  | unicodeError
  | genError
deriving DecidableEq

/-- `fetch_url(url, retries)` from `poke_instance.py` lines 227-258.

`oracle n` is the outcome of the `n`-th HTTP attempt for this URL,
`urlValid` is whether `urllib.parse.urlparse` accepts the URL,
`attempt` is the index of the next attempt, `retries` the remaining
budget (an `Int`, as in Python a negative budget is possible), and the
final `Nat` is fuel (`none` = the recursion never terminated within the
fuel, which models the unbounded recursion of a negative budget).
On success the returned `Nat` counts the HTTP attempts performed. -/
def fetch_url (oracle : Nat → Outcome) (urlValid : Bool) :
    Nat → Int → Nat → Option (FetchResult × Nat)
  | _, _, 0 => none
  | attempt, retries, fuel + 1 =>
    if retries = 0 then some (.retriesExhausted, 0)
    else if urlValid = false then some (.badURL, 0)
    else
      match oracle attempt with
      | .success body => some (.ok body, 1)
      | .httpError code => some (.httpError code, 1)
      | .unicodeError => some (.unicodeError, 1)
      | .genError => some (.genError, 1)
      | .urlError =>
        match fetch_url oracle urlValid (attempt + 1) (retries - 1) fuel with
        | none => none
        | some (r, k) => some (r, k + 1)

/-! ## `test_https` (`poke_instance.py` lines 474-501) -/

/-- `COMMON_URLS['https']` from `poke_instance.py` line 45. -/
def COMMON_URLS_https : List String :=
  ["robots.txt", "", "index.html", "index.htm",
   ".well-known/nodeinfo", ".well-known/x-nodeinfo2"]

/-- The client-error test `e.getcode() >= 400 and e.getcode() < 500`
applied to an attempt outcome. -/
def isClientError : Outcome → Bool
  | .httpError code => 400 ≤ code && code < 500
  | _ => false

/-- The `for rel in COMMON_URLS['https']` loop body of `test_https`:
a success returns `True`, a client-error HTTP status continues with the
next relative URL, every other condition returns `False`; the loop
falling off the end returns `True`. `probe rel` is the outcome of
opening `https://domain/rel`. -/
def test_https_loop (probe : String → Outcome) : List String → Bool
  | [] => true
  | rel :: rest =>
    match probe rel with
    | .success _ => true
    | .httpError code =>
      if 400 ≤ code && code < 500 then test_https_loop probe rest else false
    | .urlError => false
    | .unicodeError => false
    | .genError => false

/-- `test_https(domain)`: run the loop over the fixed relative URL list. -/
def test_https (probe : String → Outcome) : Bool :=
  test_https_loop probe COMMON_URLS_https

/-! ## `FediServer` (`fediserver.py`) -/

/-- `string.ascii_letters + string.digits + '-' + '.'`
(`FediServer.DOMAIN_CHARS`). `Char.isAlpha` / `Char.isDigit` match
Python's ASCII letter and digit sets. -/
def isDomainChar (c : Char) : Bool :=
  c.isAlpha || c.isDigit || c = '-' || c = '.'

/-- How a call of `FediServer.confirm_domain` ends: Python's `ValueError`
(raised explicitly) or the uncaught `IndexError` from `domain[0]` on an
empty string. -/
inductive DomErr where
  | valueError
  | indexError
deriving DecidableEq

/-- `str.lower` restricted to the per-character ASCII case used here. -/
def pyLower (s : List Char) : List Char := s.map Char.toLower

/-- `str.strip()`: drop whitespace from both ends. -/
def pyStrip (s : List Char) : List Char :=
  ((s.dropWhile Char.isWhitespace).reverse.dropWhile Char.isWhitespace).reverse

/-- `str.rstrip('.')`: drop every trailing dot. -/
def rstripDots (s : List Char) : List Char :=
  (s.reverse.dropWhile (fun c => c = '.')).reverse

/-- Python `"x.y".split('.')` on a list of characters. -/
def splitOnDot : List Char → List (List Char)
  | [] => [[]]
  | c :: rest =>
    if c = '.' then [] :: splitOnDot rest
    else
      match splitOnDot rest with
      | [] => [[c]]
      | t :: ts => (c :: t) :: ts

/-- The per-token checks of the `for tok in domain.split('.')` loop in
`confirm_domain` (`fediserver.py` lines 42-50): nonempty, at most 63
characters, no leading and no trailing hyphen.  Characters are validated
separately, over the whole string, by the first loop of
`confirm_domain`. -/
def validToken (tok : List Char) : Bool :=
  !(tok.length = 0 : Bool) && !(decide (tok.length > 63)) &&
    !(tok.head? == some '-') && !(tok.getLast? == some '-')

/-- `FediServer.confirm_domain` (`fediserver.py` lines 33-52): reject any
character outside `DOMAIN_CHARS`, strip all trailing dots, reject a
leading dot, then validate every dot-separated token.  An input that is
empty after the stripping crashes with `IndexError` at `domain[0]`. -/
def confirm_domain (domain : List Char) : Except DomErr (List Char) :=
  if domain.all isDomainChar then
    match rstripDots domain with
    | [] => .error .indexError
    | c :: rest =>
      if c = '.' then .error .valueError
      else if (splitOnDot (c :: rest)).all validToken then .ok (c :: rest)
      else .error .valueError
  else .error .valueError

/-- The label rules exactly as the specification words them, used to
compare the specified and the implemented validation: a label has 1-63
characters, contains only alphanumerics and hyphens, and neither starts
nor ends with a hyphen. -/
def specValidLabel (lab : List Char) : Bool :=
  (1 ≤ lab.length : Bool) && (lab.length ≤ 63 : Bool) &&
    lab.all (fun c => c.isAlpha || c.isDigit || c = '-') &&
    !(lab.head? == some '-') && !(lab.getLast? == some '-')

/-- The claim's notion of a valid domain string: every label of the
input (its dot-separated pieces) satisfies `specValidLabel`. -/
def claimValidDomain (s : List Char) : Bool :=
  (splitOnDot s).all specValidLabel

/-- One `FediServer` record: a validated domain with observation
metadata. -/
structure FediServer where
  domain : String
  hits : Int
  first_seen : Int
  last_seen : Int
deriving DecidableEq

/-- `FediServer.__init__(domain, first_seen, last_seen=None, hits=1)`
(`fediserver.py` lines 15-22).  `last_seen` is used only when truthy:
both `None` and `0` fall back to `first_seen`.  The domain is lowercased
and stripped before validation. -/
def FediServer.init (domain : String) (first_seen : Int)
    (last_seen : Option Int := none) (hits : Int := 1) :
    Except DomErr FediServer :=
  match confirm_domain (pyStrip (pyLower domain.data)) with
  | .error e => .error e
  | .ok d =>
    .ok { domain := String.mk d
          hits := hits
          first_seen := first_seen
          last_seen :=
            match last_seen with
            | some ls => if ls = 0 then first_seen else ls
            | none => first_seen }

/-- `FediServer.push_hit(ts)` (`fediserver.py` lines 54-59). -/
def FediServer.push_hit (s : FediServer) (ts : Int) : FediServer :=
  { s with
    hits := s.hits + 1
    first_seen := if s.first_seen > ts then ts else s.first_seen
    last_seen := if s.last_seen < ts then ts else s.last_seen }

/-- `FediServer.combine(hits, first_seen, last_seen)`
(`fediserver.py` lines 61-66). -/
def FediServer.combine (s : FediServer) (hits first_seen last_seen : Int) :
    FediServer :=
  { s with
    hits := s.hits + hits
    first_seen := if s.first_seen > first_seen then first_seen else s.first_seen
    last_seen := if s.last_seen < last_seen then last_seen else s.last_seen }

/-! ## Concurrent test executor (`poke_instance.perform_test`, lines 124-144) -/

/-- Result of a run of the executor: either a value or `exit(code)`. -/
inductive ExecResult (α : Type) where
  | ok (val : α)
  | abort (code : Nat)
deriving DecidableEq

/-- The filtering phase of `perform_test` (lines 140-144): hosts whose
result is falsy (`some false`; `none` cannot reach this phase) are
replaced by `None` and dropped. -/
def keepPassing : List FediServer → List (Option Bool) → List FediServer
  | [], _ => []
  | _ :: _, [] => []
  | ins :: instances, r :: results =>
    if r = some true then ins :: keepPassing instances results
    else keepPassing instances results

/-- The part of `perform_test` after the per-host results have been
collected (lines 135-144): the defensive check
`len(instances) != len(results) or None in results` aborts the process
with `exit(1)`, otherwise hosts with a false result are dropped. -/
def perform_test_collect (instances : List FediServer)
    (results : List (Option Bool)) : ExecResult (List FediServer) :=
  if instances.length ≠ results.length ∨ none ∈ results then .abort 1
  else .ok (keepPassing instances results)

/-- `perform_test(test, instances)` (lines 124-144).  Both the sequential
branch and the thread-pool branch produce the list
`[test(ins.domain) for ins in instances]` in input order (`pool.map`
preserves submission order), so the executor is their common composition
with `perform_test_collect`.  `test` may return `None`, hence
`Option Bool`. -/
def perform_test (test : String → Option Bool) (instances : List FediServer) :
    ExecResult (List FediServer) :=
  perform_test_collect instances (instances.map (fun ins => test ins.domain))

/-! ## Categorization (`poke_instance.perform_cat`, lines 185-222) -/

/-- `'Other' if not x else x` applied to one categorization result:
Python folds every falsy result (`None` and the empty string) into
`'Other'`. -/
def orOther : Option String → String
  | none => "Other"
  | some s => if s = "" then "Other" else s

/-- One step of the `sums` tally (lines 205-210): increment the entry for
`s`, inserting it at the end on first encounter (Python dicts preserve
insertion order). -/
def bump : List (String × Nat) → String → List (String × Nat)
  | [], s => [(s, 1)]
  | (k, n) :: rest, s =>
    if k = s then (k, n + 1) :: rest else (k, n) :: bump rest s

/-- The full `sums` dictionary built from the category results. -/
def tally (results : List String) : List (String × Nat) :=
  results.foldl bump []

/-- `largest = list(sums)[0]; for key,value in sums.items(): if value >
sums[largest]: largest = key` — the first entry holding the maximum
count. -/
def findLargest (best : String × Nat) (l : List (String × Nat)) : String × Nat :=
  l.foldl (fun b p => if p.2 > b.2 then p else b) best

/-- `sums.pop(key)`: remove the first (and, keys being unique, only)
entry with the given key. -/
def removeKey (key : String) : List (String × Nat) → List (String × Nat)
  | [] => []
  | p :: rest => if p.1 = key then rest else p :: removeKey key rest

/-- The `for ii in range(len(sums))` selection loop (lines 215-220):
repeatedly move the first maximal entry of `sums` to the output.  The
fuel equals the starting length of `sums`, exactly as `range(len(sums))`
does. -/
def sortSums_loop : Nat → List (String × Nat) → List (String × Nat)
  | 0, _ => []
  | _ + 1, [] => []
  | n + 1, x :: xs =>
    let lg := findLargest x xs
    lg :: sortSums_loop n (removeKey lg.1 (x :: xs))

/-- The whole sorting phase of `perform_cat`. -/
def sortSums (l : List (String × Nat)) : List (String × Nat) :=
  sortSums_loop l.length l

/-- One `OrderedDict` assignment `rv[key] = val` (lines 214 and 220):
an existing key keeps its position and gets the new value, a new key is
appended at the end. -/
def odAssign (rv : List (String × Nat)) (key : String) (val : Nat) :
    List (String × Nat) :=
  match rv with
  | [] => [(key, val)]
  | (k, v) :: rest =>
    if k = key then (k, val) :: rest else (k, v) :: odAssign rest key val

/-- `perform_cat(cat, instances)` (lines 185-222): collect the per-host
category strings in input order (both execution branches preserve it),
fold falsy results into `'Other'`, tally, then build the result
`OrderedDict`: first `rv['Total'] = total`, then one
`rv[largest] = sums.pop(largest)` assignment per selection-loop round.
A bucket literally named `'Total'` therefore overwrites the reserved
entry in place. -/
def perform_cat (cat : String → Option String) (instances : List FediServer) :
    List (String × Nat) :=
  let results := instances.map (fun ins => orOther (cat ins.domain))
  (sortSums (tally results)).foldl (fun rv p => odAssign rv p.1 p.2)
    [("Total", results.length)]

/-- Sum of the per-bucket counts of a tally. -/
def sumCounts (l : List (String × Nat)) : Nat :=
  (l.map Prod.snd).sum

/-! ## Registry merge (`merge_csv.py`, lines 26-42) -/

/-- The merge loop of `merge_csv.py`: starting from the first registry,
`for k,v in f1.items(): if k not in f0: f0[k] = v`.  Registries are the
insertion-ordered dictionaries produced by `parse_consolidated`,
modelled as association lists with unique keys. -/
def merge_registries (f0 f1 : List (String × FediServer)) :
    List (String × FediServer) :=
  f0 ++ f1.filter (fun kv => (f0.lookup kv.1).isNone)

/-! ## Nodeinfo attribute walk (`poke_instance.fetch_nodeinfo_attr`, lines 264-308) -/

/-- A parsed JSON document (`json.loads` output). -/
inductive Json where
  | null
  | bool (b : Bool)
  | num (n : Int)
  | str (s : String)
  | arr (elems : List Json)
  | obj (fields : List (String × Json))

/-- One key of the `attr` path: Python string keys address dicts,
integer keys address lists. -/
inductive AKey where
  | str (s : String)
  | int (n : Int)

/-- An uncaught Python exception escaping `fetch_nodeinfo_attr`. -/
inductive PyError where
  | typeError
  | keyError
  | indexError
deriving DecidableEq

/-- Whether `needle` starts `hay` (Python `str.startswith`). -/
def listStartsWith : List Char → List Char → Bool
  | _, [] => true
  | [], _ :: _ => false
  | a :: as, b :: bs => a = b && listStartsWith as bs

/-- Python substring containment `needle in hay` for strings. -/
def strContains (needle : List Char) : List Char → Bool
  | [] => needle.isEmpty
  | c :: t => listStartsWith (c :: t) needle || strContains needle t

/-- Python list indexing `l[n]` (negative indices count from the end);
`none` is an `IndexError`. -/
def pyIndex {α : Type} (l : List α) (n : Int) : Option α :=
  if 0 ≤ n then l.get? n.toNat
  else if 0 ≤ n + l.length then l.get? (n + l.length).toNat
  else none

/-- Python `key in x` followed by `x[key]` for a string `key`, as chained
in `fetch_nodeinfo_attr`: a dict lookup, but on a list an element-
membership test and on a string a substring test, both of which raise
`TypeError` at the subsequent indexing when the test succeeds; on any
other value the membership test itself raises `TypeError`. -/
def getStrKey (j : Json) (key : String) : Except PyError (Option Json) :=
  match j with
  | .obj fields => .ok (fields.lookup key)
  | .arr elems =>
    if elems.any (fun x => match x with | .str t => t == key | _ => false)
    then .error .typeError else .ok none
  | .str t =>
    if strContains key.data t.data then .error .typeError else .ok none
  | _ => .error .typeError

/-- The `for key in attr` walk of `fetch_nodeinfo_attr` (lines 293-307).
An integer key first evaluates `len(active_stem) > key` (a `TypeError`
on values without a length) and then indexes: lists index normally,
dicts raise `KeyError` (JSON objects never carry integer keys), strings
yield a one-character string; a guarded index can still raise
`IndexError` for a negative key below `-len`.  A string key follows
`getStrKey`; a missing key returns `None`. -/
def walkAttr : Json → List AKey → Except PyError (Option Json)
  | j, [] => .ok (some j)
  | j, .int n :: rest =>
    match j with
    | .arr elems =>
      if n < (elems.length : Int) then
        match pyIndex elems n with
        | some x => walkAttr x rest
        | none => .error .indexError
      else .ok none
    | .obj fields =>
      if n < (fields.length : Int) then .error .keyError else .ok none
    | .str t =>
      if n < (t.length : Int) then
        match pyIndex t.data n with
        | some c => walkAttr (.str (String.mk [c])) rest
        | none => .error .indexError
      else .ok none
    | _ => .error .typeError
  | j, .str s :: rest =>
    match getStrKey j s with
    | .error e => .error e
    | .ok none => .ok none
    | .ok (some v) => walkAttr v rest

/-- `fetch_nodeinfo_attr(domain, attr)` (lines 264-308).  `doc url` is
the already-parsed document served at `url`: `none` collapses both a
`fetch_url` failure and a `json.JSONDecodeError`, each of which the
function turns into `None`.  The root document must be an object with a
nonempty `links` list whose **last** entry carries an `href` string;
anything else returns `None`, except for the `TypeError`-style crashes
of the membership/indexing idioms, which propagate. -/
def fetch_nodeinfo_attr (doc : String → Option Json) (domain : String)
    (attr : List AKey) : Except PyError (Option Json) :=
  match doc ("https://" ++ domain ++ "/.well-known/nodeinfo") with
  | none => .ok none
  | some j_schemas =>
    match getStrKey j_schemas "links" with
    | .error e => .error e
    | .ok none => .ok none
    | .ok (some links) =>
      match links with
      | .arr elems =>
        match elems.getLast? with
        | none => .ok none
        | some last =>
          match getStrKey last "href" with
          | .error e => .error e
          | .ok none => .ok none
          | .ok (some href) =>
            match href with
            | .str url =>
              match doc url with
              | none => .ok none
              | some j_nodeinfo => walkAttr j_nodeinfo attr
            | _ => .error .typeError
      | _ => .ok none

end Fediscripts

namespace Fediscripts

/-! ## Executor lemmas -/

theorem keepPassing_map_some (test : String → Bool) (l : List FediServer) :
    keepPassing l (l.map fun ins => some (test ins.domain)) =
      l.filter (fun ins => test ins.domain) := by
  induction l with
  | nil => rfl
  | cons a t ih =>
    by_cases h : test a.domain <;>
      simp [keepPassing, List.filter_cons, h, ih]

/-- Claim C1 — `perform_test` with a boolean test keeps exactly the hosts
whose test result is true, as a stable filter: the output is the
order-preserving subsequence of the input on the passing hosts, and is
never longer than the input. -/
theorem perform_test_stable_filter (test : String → Bool)
    (instances : List FediServer) :
    perform_test (fun d => some (test d)) instances =
        .ok (instances.filter (fun ins => test ins.domain))
      ∧ List.Sublist (instances.filter (fun ins => test ins.domain)) instances
      ∧ (instances.filter (fun ins => test ins.domain)).length ≤ instances.length
      ∧ ∀ h, (h ∈ instances.filter (fun ins => test ins.domain) ↔
          h ∈ instances ∧ test h.domain = true) := by
  refine ⟨?_, List.filter_sublist _, List.length_filter_le _ _, ?_⟩
  · unfold perform_test perform_test_collect
    rw [if_neg]
    · rw [keepPassing_map_some]
    · simp
  · intro h
    simp [List.mem_filter]

/-- Claim C9 — inside `perform_test`, a `None` per-host result or a result
count different from the input count makes the whole process abort with
exit status 1; in particular a host whose test returns `None` is never
silently filtered out. -/
theorem perform_test_none_aborts (test : String → Option Bool)
    (instances : List FediServer) :
    (none ∈ instances.map (fun ins => test ins.domain) →
        perform_test test instances = .abort 1)
      ∧ (∀ results : List (Option Bool), instances.length ≠ results.length →
        perform_test_collect instances results = .abort 1)
      ∧ (∀ ins, ins ∈ instances → test ins.domain = none →
        perform_test test instances = .abort 1) := by
  refine ⟨?_, ?_, ?_⟩
  · intro hmem
    unfold perform_test perform_test_collect
    exact if_pos (Or.inr hmem)
  · intro results hlen
    unfold perform_test_collect
    exact if_pos (Or.inl hlen)
  · intro ins hins hnone
    unfold perform_test perform_test_collect
    refine if_pos (Or.inr ?_)
    exact List.mem_map.mpr ⟨ins, hins, hnone⟩

theorem perform_test_none_aborts_witness :
    perform_test (fun _ => none) [⟨"a.example", 1, 0, 0⟩] = .abort 1 :=
  (perform_test_none_aborts (fun _ => none) [⟨"a.example", 1, 0, 0⟩]).2.2
    ⟨"a.example", 1, 0, 0⟩ (List.mem_singleton.mpr rfl) rfl

/-! ## Fetch layer theorems -/

/-- Claim C2, counterexample — a URL answering HTTP 503 three times in a
row does **not** exhaust the retry budget: the very first attempt raises
the non-retryable `fetch_url.HTTPError`, because the `HTTPError` handler
fires before the retrying `URLError` handler. -/
theorem fetch_url_503_counterexample :
    fetch_url (fun _ => .httpError 503) true 0 3 100 =
        some (.httpError 503, 1)
      ∧ FetchResult.httpError 503 ≠ FetchResult.retriesExhausted := by
  exact ⟨by decide, by decide⟩

/-- Claim C2, amended — every HTTP error status (404, 503, ...) makes
`fetch_url` fail on the first attempt, without retrying, with
`fetch_url.HTTPError`; only transport-level `URLError`s retry, and three
of them in a row exhaust the default budget of 3 and raise
`fetch_url.retries_exhausted`. -/
theorem fetch_url_http_error_immediate (oracle : Nat → Outcome)
    (attempt fuel : Nat) (retries : Int) (code : Nat) :
    (oracle attempt = .httpError code → retries ≠ 0 → 1 ≤ fuel →
        fetch_url oracle true attempt retries fuel =
          some (.httpError code, 1))
      ∧ ((∀ k, oracle k = .urlError) → 4 ≤ fuel →
        fetch_url oracle true attempt 3 fuel =
          some (.retriesExhausted, 3)) := by
  constructor
  · intro horacle hretries hfuel
    match fuel, hfuel with
    | f + 1, _ => simp [fetch_url, hretries, horacle]
  · intro horacle hfuel
    match fuel, hfuel with
    | f + 4, _ =>
      simp only [fetch_url, horacle]
      norm_num

theorem fetch_url_http_error_immediate_witness :
    fetch_url (fun _ => .httpError 404) true 0 3 10 = some (.httpError 404, 1)
      ∧ fetch_url (fun _ => .urlError) true 0 3 10 =
        some (.retriesExhausted, 3) :=
  ⟨(fetch_url_http_error_immediate (fun _ => .httpError 404) 0 10 3 404).1
      rfl (by decide) (by decide),
    (fetch_url_http_error_immediate (fun _ => .urlError) 0 10 3 404).2
      (fun _ => rfl) (by decide)⟩

/-- Claim C10 — `fetch_url` terminates for every nonnegative retry budget
`n`, performing at most `n` HTTP attempts; a budget of 0 raises
`retries_exhausted` before any request; and the recursion never reaches
its base case for a negative budget under persistent transport errors
(it only stops when the fuel runs out), so `n ≥ 0` is required. -/
theorem fetch_url_termination_budget :
    (∀ (oracle : Nat → Outcome) (urlValid : Bool) (attempt n fuel : Nat),
        n + 1 ≤ fuel →
        ∃ r k, fetch_url oracle urlValid attempt (n : Int) fuel = some (r, k)
          ∧ k ≤ n)
      ∧ (∀ (oracle : Nat → Outcome) (urlValid : Bool) (attempt fuel : Nat),
        1 ≤ fuel →
        fetch_url oracle urlValid attempt 0 fuel = some (.retriesExhausted, 0))
      ∧ (∀ (oracle : Nat → Outcome) (attempt : Nat) (retries : Int)
        (fuel : Nat), retries < 0 → (∀ k, oracle k = .urlError) →
        fetch_url oracle true attempt retries fuel = none) := by
  refine ⟨?_, ?_, ?_⟩
  · intro oracle urlValid attempt n
    induction n generalizing attempt with
    | zero =>
      intro fuel hfuel
      match fuel, hfuel with
      | f + 1, _ => exact ⟨.retriesExhausted, 0, by simp [fetch_url], le_refl 0⟩
    | succ m ih =>
      intro fuel hfuel
      match fuel, hfuel with
      | f + 1, hf =>
        have hne : ¬(((m + 1 : Nat) : Int) = 0) := by
          exact_mod_cast Nat.succ_ne_zero m
        unfold fetch_url
        rw [if_neg hne]
        cases urlValid with
        | false =>
          rw [if_pos rfl]
          exact ⟨.badURL, 0, rfl, Nat.zero_le _⟩
        | true =>
          rw [if_neg (by decide)]
          have hcast : ((m + 1 : Nat) : Int) - 1 = (m : Int) := by push_cast; ring
          cases horacle : oracle attempt with
          | success body => exact ⟨.ok body, 1, rfl, by omega⟩
          | httpError code => exact ⟨.httpError code, 1, rfl, by omega⟩
          | unicodeError => exact ⟨.unicodeError, 1, rfl, by omega⟩
          | genError => exact ⟨.genError, 1, rfl, by omega⟩
          | urlError =>
            obtain ⟨r, k, hrec, hk⟩ := ih (attempt + 1) f (by omega)
            rw [hcast, hrec]
            exact ⟨r, k + 1, rfl, by omega⟩
  · intro oracle urlValid attempt fuel hfuel
    match fuel, hfuel with
    | f + 1, _ => simp [fetch_url]
  · intro oracle attempt retries fuel
    induction fuel generalizing attempt retries with
    | zero => intro _ _; rfl
    | succ f ih =>
      intro hneg horacle
      have hne : retries ≠ 0 := by omega
      simp [fetch_url, hne, horacle, ih (attempt + 1) (retries - 1) (by omega) horacle]

theorem fetch_url_termination_budget_witness :
    (∃ r k, fetch_url (fun _ => .genError) true 0 ((2 : Nat) : Int) 5 =
        some (r, k) ∧ k ≤ 2)
      ∧ fetch_url (fun _ => .urlError) false 0 0 7 =
        some (.retriesExhausted, 0)
      ∧ fetch_url (fun _ => .urlError) true 0 (-1) 50 = none :=
  ⟨fetch_url_termination_budget.1 (fun _ => .genError) true 0 2 5 (by decide),
    fetch_url_termination_budget.2.1 (fun _ => .urlError) false 0 7 (by decide),
    fetch_url_termination_budget.2.2 (fun _ => .urlError) 0 (-1) 50 (by decide)
      (fun _ => rfl)⟩

/-! ## `test_https` theorems -/

/-- Claim C3 — `test_https` walks the well-known relative paths in order:
a client-error HTTP status (400-499) moves on to the next path, the
first successful fetch short-circuits to `True`, a run in which every
path only ever yields client errors still returns `True`, and any other
network or error condition returns `False`. -/
theorem test_https_loop_cons (probe : String → Outcome) (rel : String)
    (rest : List String) :
    test_https_loop probe (rel :: rest) =
      match probe rel with
      | .success _ => true
      | .httpError code =>
        if 400 ≤ code && code < 500 then test_https_loop probe rest else false
      | .urlError => false
      | .unicodeError => false
      | .genError => false := rfl

theorem test_https_client_error_policy (probe : String → Outcome) :
    ((∀ rel ∈ COMMON_URLS_https, isClientError (probe rel) = true) →
        test_https probe = true)
      ∧ (∀ rel rest body, probe rel = .success body →
        test_https_loop probe (rel :: rest) = true)
      ∧ (∀ rel rest, isClientError (probe rel) = true →
        test_https_loop probe (rel :: rest) = test_https_loop probe rest)
      ∧ (∀ rel rest, isClientError (probe rel) = false →
        (∀ body, probe rel ≠ .success body) →
        test_https_loop probe (rel :: rest) = false) := by
  have hclient : ∀ rel rest, isClientError (probe rel) = true →
      test_https_loop probe (rel :: rest) = test_https_loop probe rest := by
    intro rel rest h
    cases hp : probe rel with
    | httpError code =>
      rw [hp] at h
      simp only [isClientError] at h
      rw [test_https_loop_cons, hp]
      simp [h]
    | success body => rw [hp] at h; simp [isClientError] at h
    | urlError => rw [hp] at h; simp [isClientError] at h
    | unicodeError => rw [hp] at h; simp [isClientError] at h
    | genError => rw [hp] at h; simp [isClientError] at h
  refine ⟨?_, ?_, hclient, ?_⟩
  · intro hall
    unfold test_https
    have : ∀ paths : List String,
        (∀ rel ∈ paths, isClientError (probe rel) = true) →
        test_https_loop probe paths = true := by
      intro paths
      induction paths with
      | nil => intro _; rfl
      | cons rel rest ih =>
        intro hp
        rw [hclient rel rest (hp rel (by simp))]
        exact ih (fun r hr => hp r (by simp [hr]))
    exact this _ hall
  · intro rel rest body hp
    rw [test_https_loop_cons, hp]
  · intro rel rest hnc hns
    cases hp : probe rel with
    | success body => exact absurd hp (hns body)
    | httpError code =>
      rw [hp] at hnc
      simp only [isClientError] at hnc
      rw [test_https_loop_cons, hp]
      simp [hnc]
    | urlError => rw [test_https_loop_cons, hp]
    | unicodeError => rw [test_https_loop_cons, hp]
    | genError => rw [test_https_loop_cons, hp]

theorem test_https_client_error_policy_witness :
    test_https (fun _ => .httpError 404) = true
      ∧ test_https_loop (fun _ => .httpError 503) ["about"] = false :=
  ⟨(test_https_client_error_policy (fun _ => .httpError 404)).1
      (fun _ _ => by decide),
    (test_https_client_error_policy (fun _ => .httpError 503)).2.2.2
      "about" [] (by decide) (fun body h => Outcome.noConfusion h)⟩

/-! ## `FediServer` interval invariant (claim C8) -/

/-- Claim C8, counterexample — the constructor accepts an explicit
`last_seen` smaller than `first_seen` unchecked, so the
`first_seen <= last_seen` invariant does **not** hold after every
accepted construction: `FediServer('a.example', 100, 50)` is accepted
and stores `first_seen = 100 > 50 = last_seen`. -/
theorem fediserver_interval_counterexample :
    FediServer.init "a.example" 100 (some 50) 1 =
        .ok ⟨"a.example", 1, 100, 50⟩
      ∧ ¬((100 : Int) ≤ 50) := by
  exact ⟨by decide, by decide⟩

/-- Claim C8, amended — `first_seen <= last_seen` holds after
construction whenever the supplied `last_seen` is omitted, falsy
(`None`/`0`), or at least `first_seen` (an explicit nonzero
`last_seen < first_seen` is stored unchecked), and the invariant is
preserved by every `push_hit` and every `combine`. -/
theorem fediserver_interval_invariant :
    (∀ (domain : String) (fs hits : Int) (s : FediServer),
        FediServer.init domain fs none hits = .ok s →
        s.first_seen ≤ s.last_seen)
      ∧ (∀ (domain : String) (fs ls hits : Int) (s : FediServer),
        FediServer.init domain fs (some ls) hits = .ok s →
        (ls = 0 ∨ fs ≤ ls) → s.first_seen ≤ s.last_seen)
      ∧ (∀ (s : FediServer) (ts : Int), s.first_seen ≤ s.last_seen →
        (s.push_hit ts).first_seen ≤ (s.push_hit ts).last_seen)
      ∧ (∀ (s : FediServer) (hits fs ls : Int), s.first_seen ≤ s.last_seen →
        (s.combine hits fs ls).first_seen ≤ (s.combine hits fs ls).last_seen) := by
  refine ⟨?_, ?_, ?_, ?_⟩
  · intro domain fs hits s hinit
    unfold FediServer.init at hinit
    cases hconf : confirm_domain (pyStrip (pyLower domain.data)) with
    | error e => rw [hconf] at hinit; exact Except.noConfusion hinit
    | ok d =>
      rw [hconf] at hinit
      cases hinit
      exact le_refl fs
  · intro domain fs ls hits s hinit hls
    unfold FediServer.init at hinit
    cases hconf : confirm_domain (pyStrip (pyLower domain.data)) with
    | error e => rw [hconf] at hinit; exact Except.noConfusion hinit
    | ok d =>
      rw [hconf] at hinit
      cases hinit
      show fs ≤ if ls = 0 then fs else ls
      rcases hls with h0 | hle
      · rw [if_pos h0]
      · by_cases h0 : ls = 0
        · rw [if_pos h0]
        · rw [if_neg h0]; exact hle
  · intro s ts h
    unfold FediServer.push_hit
    dsimp only
    split <;> split <;> omega
  · intro s hits fs ls h
    unfold FediServer.combine
    dsimp only
    split <;> split <;> omega

theorem fediserver_interval_invariant_witness :
    FediServer.init "b.example" 7 none 1 = .ok ⟨"b.example", 1, 7, 7⟩
      ∧ (7 : Int) ≤ 7
      ∧ (FediServer.push_hit ⟨"b.example", 1, 7, 7⟩ 3).first_seen ≤
        (FediServer.push_hit ⟨"b.example", 1, 7, 7⟩ 3).last_seen :=
  ⟨by decide,
    fediserver_interval_invariant.1 "b.example" 7 1 ⟨"b.example", 1, 7, 7⟩
      (by decide),
    fediserver_interval_invariant.2.2.1 ⟨"b.example", 1, 7, 7⟩ 3 (by decide)⟩

/-! ## Registry merge (claim C6) -/

theorem lookup_append (l1 l2 : List (String × FediServer)) (k : String) :
    (l1 ++ l2).lookup k =
      match l1.lookup k with
      | some v => some v
      | none => l2.lookup k := by
  induction l1 with
  | nil => rfl
  | cons p rest ih =>
    obtain ⟨k', v'⟩ := p
    by_cases h : k == k'
    · simp [List.lookup, h]
    · simp only [List.cons_append, List.lookup, h]
      exact ih

theorem lookup_filter_new (f0 f1 : List (String × FediServer)) (k : String)
    (h : f0.lookup k = none) :
    (f1.filter (fun kv => (f0.lookup kv.1).isNone)).lookup k = f1.lookup k := by
  induction f1 with
  | nil => rfl
  | cons p rest ih =>
    obtain ⟨k', v'⟩ := p
    by_cases hk : (k == k') = true
    · have hkk : k = k' := eq_of_beq hk
      have h0 : List.lookup k' f0 = none := by rw [← hkk]; exact h
      have hkeep : ((List.lookup (k', v').1 f0).isNone = true) := by simp [h0]
      rw [List.filter_cons, if_pos hkeep]
      simp [List.lookup, hk]
    · have hk' : (k == k') = false := by
        cases hb : k == k'
        · rfl
        · exact absurd hb hk
      by_cases hkeep : ((List.lookup (k', v').1 f0).isNone = true)
      · rw [List.filter_cons, if_pos hkeep]
        simp only [List.lookup, hk']
        exact ih
      · rw [List.filter_cons, if_neg hkeep]
        rw [ih]
        simp only [List.lookup, hk']

/-- Claim C6, counterexample — for a domain present in both registries,
the merge of `merge_csv.py` keeps the first registry's entry unchanged:
hit counts are **not** combined (2, not 2+3) and the merged
`[firstSeen, lastSeen]` interval `[10, 20]` does not cover the second
input's interval `[5, 30]`. -/
theorem merge_registries_counterexample :
    (merge_registries [("d.example", ⟨"d.example", 2, 10, 20⟩)]
        [("d.example", ⟨"d.example", 3, 5, 30⟩)]).lookup "d.example" =
      some ⟨"d.example", 2, 10, 20⟩
    ∧ ¬((2 : Int) = 2 + 3) ∧ ¬((10 : Int) ≤ 5) ∧ ¬((30 : Int) ≤ 20) := by
  refine ⟨by decide, by decide, by decide, by decide⟩

/-- Claim C6, amended — the merge of `merge_csv.py` yields a registry
whose domain set is the union of both key sets, but for a domain present
in both registries the first registry's entry is kept unchanged (no hit
counts are combined and the interval is not widened); domains only in
the second registry keep their second-registry entry. -/
theorem merge_registries_union_first_wins
    (f0 f1 : List (String × FediServer)) (k : String) :
    ((merge_registries f0 f1).lookup k).isSome =
        ((f0.lookup k).isSome || (f1.lookup k).isSome)
      ∧ (∀ v, f0.lookup k = some v → (merge_registries f0 f1).lookup k = some v)
      ∧ (f0.lookup k = none →
        (merge_registries f0 f1).lookup k = f1.lookup k) := by
  refine ⟨?_, ?_, ?_⟩
  · cases h0 : f0.lookup k with
    | some v => simp [merge_registries, lookup_append, h0]
    | none =>
      simp only [merge_registries, lookup_append, h0]
      rw [lookup_filter_new f0 f1 k h0]
      simp
  · intro v hv
    simp [merge_registries, lookup_append, hv]
  · intro h0
    simp only [merge_registries, lookup_append, h0]
    exact lookup_filter_new f0 f1 k h0

/-! ## Domain validation (claim C5) -/

theorem splitOnDot_cons_dot (rest : List Char) :
    splitOnDot ('.' :: rest) = [] :: splitOnDot rest := by
  simp [splitOnDot]

theorem splitOnDot_ne_nil (l : List Char) : splitOnDot l ≠ [] := by
  cases l with
  | nil => simp [splitOnDot]
  | cons a rest =>
    simp only [splitOnDot]
    by_cases ha : a = '.'
    · rw [if_pos ha]; exact List.cons_ne_nil _ _
    · rw [if_neg ha]
      cases splitOnDot rest with
      | nil => exact List.cons_ne_nil _ _
      | cons t ts => exact List.cons_ne_nil _ _

theorem splitOnDot_cons_ne (a : Char) (rest : List Char) (ha : ¬(a = '.'))
    (t : List Char) (ts : List (List Char)) (hsp : splitOnDot rest = t :: ts) :
    splitOnDot (a :: rest) = (a :: t) :: ts := by
  simp only [splitOnDot]
  rw [if_neg ha, hsp]

theorem splitOnDot_chars : ∀ (l lab : List Char), lab ∈ splitOnDot l →
    ∀ c, c ∈ lab → c ∈ l ∧ ¬(c = '.') := by
  intro l
  induction l with
  | nil =>
    intro lab hlab c hc
    simp [splitOnDot] at hlab
    subst hlab
    simp at hc
  | cons a rest ih =>
    intro lab hlab c hc
    by_cases ha : a = '.'
    · subst ha
      rw [splitOnDot_cons_dot] at hlab
      rcases List.mem_cons.mp hlab with h | h
      · subst h; simp at hc
      · obtain ⟨hcl, hcd⟩ := ih lab h c hc
        exact ⟨List.mem_cons_of_mem _ hcl, hcd⟩
    · cases hsp : splitOnDot rest with
      | nil => exact absurd hsp (splitOnDot_ne_nil rest)
      | cons t ts =>
        rw [splitOnDot_cons_ne a rest ha t ts hsp] at hlab
        rcases List.mem_cons.mp hlab with h | h
        · subst h
          rcases List.mem_cons.mp hc with h1 | h1
          · exact ⟨by rw [h1]; exact List.mem_cons_self a rest,
              by rw [h1]; exact ha⟩
          · obtain ⟨hcl, hcd⟩ :=
              ih t (by rw [hsp]; exact List.mem_cons_self t ts) c h1
            exact ⟨List.mem_cons_of_mem _ hcl, hcd⟩
        · obtain ⟨hcl, hcd⟩ :=
            ih lab (by rw [hsp]; exact List.mem_cons_of_mem _ h) c hc
          exact ⟨List.mem_cons_of_mem _ hcl, hcd⟩

theorem splitOnDot_cover : ∀ (l : List Char) (c : Char), c ∈ l →
    c = '.' ∨ ∃ lab, lab ∈ splitOnDot l ∧ c ∈ lab := by
  intro l
  induction l with
  | nil => intro c hc; simp at hc
  | cons a rest ih =>
    intro c hc
    by_cases ha : a = '.'
    · rcases List.mem_cons.mp hc with h | h
      · exact Or.inl (h.trans ha)
      · rcases ih c h with h1 | ⟨lab, hlab, hcl⟩
        · exact Or.inl h1
        · refine Or.inr ⟨lab, ?_, hcl⟩
          subst ha
          rw [splitOnDot_cons_dot]
          exact List.mem_cons_of_mem _ hlab
    · cases hsp : splitOnDot rest with
      | nil => exact absurd hsp (splitOnDot_ne_nil rest)
      | cons t ts =>
        have heq := splitOnDot_cons_ne a rest ha t ts hsp
        rcases List.mem_cons.mp hc with h | h
        · refine Or.inr ⟨a :: t, ?_, ?_⟩
          · rw [heq]; exact List.mem_cons_self _ _
          · rw [h]; exact List.mem_cons_self a t
        · rcases ih c h with h1 | ⟨lab, hlab, hcl⟩
          · exact Or.inl h1
          · rw [hsp] at hlab
            rcases List.mem_cons.mp hlab with h2 | h2
            · refine Or.inr ⟨a :: t, ?_, ?_⟩
              · rw [heq]; exact List.mem_cons_self _ _
              · subst h2; exact List.mem_cons_of_mem a hcl
            · refine Or.inr ⟨lab, ?_, hcl⟩
              rw [heq]
              exact List.mem_cons_of_mem _ h2

theorem all_takeWhile (p : Char → Bool) (l : List Char) :
    (l.takeWhile p).all p = true := by
  induction l with
  | nil => rfl
  | cons a t ih =>
    cases hpa : p a <;> simp [List.takeWhile_cons, hpa, ih]

theorem rstripDots_append_dots (s : List Char) :
    ∃ d, s = rstripDots s ++ d ∧ d.all (fun c => c = '.') = true := by
  refine ⟨(s.reverse.takeWhile (fun c => c = '.')).reverse, ?_, ?_⟩
  · show s = (s.reverse.dropWhile (fun c => c = '.')).reverse ++
      (s.reverse.takeWhile (fun c => c = '.')).reverse
    rw [← List.reverse_append, List.takeWhile_append_dropWhile,
      List.reverse_reverse]
  · rw [List.all_reverse]
    exact all_takeWhile (fun c => decide (c = '.')) s.reverse

theorem rstripDots_eq_nil (s : List Char) (h : rstripDots s = []) :
    s.all (fun c => c = '.') = true := by
  unfold rstripDots at h
  rw [List.reverse_eq_nil_iff, List.dropWhile_eq_nil_iff] at h
  rw [List.all_eq_true]
  intro x hx
  exact h x (List.mem_reverse.mpr hx)

theorem validToken_of_spec (lab : List Char) (h : specValidLabel lab = true) :
    validToken lab = true := by
  simp only [specValidLabel, Bool.and_eq_true, decide_eq_true_eq,
    Bool.not_eq_true'] at h
  obtain ⟨⟨⟨⟨h1, h2⟩, h3⟩, h4⟩, h5⟩ := h
  simp only [validToken, Bool.and_eq_true, Bool.not_eq_true',
    decide_eq_false_iff_not]
  exact ⟨⟨⟨by omega, by omega⟩, h4⟩, h5⟩

theorem spec_of_validToken (lab : List Char)
    (hchar : lab.all (fun c => c.isAlpha || c.isDigit || c = '-') = true)
    (h : validToken lab = true) : specValidLabel lab = true := by
  simp only [validToken, Bool.and_eq_true, Bool.not_eq_true',
    decide_eq_false_iff_not] at h
  obtain ⟨⟨⟨h1, h2⟩, h4⟩, h5⟩ := h
  simp only [specValidLabel, Bool.and_eq_true, decide_eq_true_eq,
    Bool.not_eq_true']
  exact ⟨⟨⟨⟨by omega, by omega⟩, hchar⟩, h4⟩, h5⟩

theorem confirm_domain_cases (t : List Char) :
    (rstripDots t = [] → confirm_domain t = .error .indexError)
      ∧ ((splitOnDot (rstripDots t)).all specValidLabel = true →
        rstripDots t ≠ [] → confirm_domain t = .ok (rstripDots t))
      ∧ ((splitOnDot (rstripDots t)).all specValidLabel = false →
        rstripDots t ≠ [] → confirm_domain t = .error .valueError) := by
  obtain ⟨d, hd, hdall⟩ := rstripDots_append_dots t
  refine ⟨?_, ?_, ?_⟩
  · intro h
    have hdots := rstripDots_eq_nil t h
    have hchar : t.all isDomainChar = true := by
      rw [List.all_eq_true] at hdots ⊢
      intro x hx
      have hxd := hdots x hx
      simp only [decide_eq_true_eq] at hxd
      rw [hxd]
      decide
    unfold confirm_domain
    rw [if_pos hchar, h]
  · intro hall hne
    have hchar : t.all isDomainChar = true := by
      conv_lhs => rw [hd]
      rw [List.all_append]
      have hleft : (rstripDots t).all isDomainChar = true := by
        rw [List.all_eq_true]
        intro x hx
        rcases splitOnDot_cover (rstripDots t) x hx with hxd | ⟨lab, hlab, hxl⟩
        · rw [hxd]; decide
        · rw [List.all_eq_true] at hall
          have hspec := hall lab hlab
          simp only [specValidLabel, Bool.and_eq_true] at hspec
          have hcl := hspec.1.1.2
          rw [List.all_eq_true] at hcl
          have hx3 := hcl x hxl
          simp only [Bool.or_eq_true, decide_eq_true_eq] at hx3
          unfold isDomainChar
          simp only [Bool.or_eq_true, decide_eq_true_eq]
          tauto
      have hright : d.all isDomainChar = true := by
        rw [List.all_eq_true] at hdall ⊢
        intro x hx
        have hxd := hdall x hx
        simp only [decide_eq_true_eq] at hxd
        rw [hxd]
        decide
      rw [hleft, hright]
      rfl
    obtain ⟨c, rest, hn⟩ : ∃ c rest, rstripDots t = c :: rest := by
      cases hcr : rstripDots t with
      | nil => exact absurd hcr hne
      | cons c rest => exact ⟨c, rest, rfl⟩
    have hcdot : ¬(c = '.') := by
      intro hc
      subst hc
      rw [hn, splitOnDot_cons_dot, List.all_eq_true] at hall
      have := hall [] (List.mem_cons_self _ _)
      simp [specValidLabel] at this
    have hcode : (splitOnDot (c :: rest)).all validToken = true := by
      rw [← hn]
      rw [List.all_eq_true] at hall ⊢
      intro lab hlab
      exact validToken_of_spec lab (hall lab hlab)
    unfold confirm_domain
    rw [if_pos hchar, hn]
    show (if c = '.' then Except.error DomErr.valueError
        else if ((splitOnDot (c :: rest)).all validToken) = true
          then Except.ok (c :: rest)
          else Except.error DomErr.valueError) = Except.ok (c :: rest)
    rw [if_neg hcdot, if_pos hcode]
  · intro hall hne
    cases hchar : t.all isDomainChar with
    | false =>
      unfold confirm_domain
      rw [if_neg (by simp [hchar])]
    | true =>
      obtain ⟨c, rest, hn⟩ : ∃ c rest, rstripDots t = c :: rest := by
        cases hcr : rstripDots t with
        | nil => exact absurd hcr hne
        | cons c rest => exact ⟨c, rest, rfl⟩
      by_cases hcdot : c = '.'
      · unfold confirm_domain
        rw [if_pos hchar, hn]
        show (if c = '.' then Except.error DomErr.valueError
            else if ((splitOnDot (c :: rest)).all validToken) = true
              then Except.ok (c :: rest)
              else Except.error DomErr.valueError) = Except.error DomErr.valueError
        rw [if_pos hcdot]
      · have hcode : (splitOnDot (c :: rest)).all validToken = false := by
          rw [← hn]
          rw [List.all_eq_false] at hall ⊢
          obtain ⟨lab, hlab, hlabf⟩ := hall
          refine ⟨lab, hlab, ?_⟩
          intro hvt
          apply hlabf
          refine spec_of_validToken lab ?_ hvt
          rw [List.all_eq_true]
          intro x hxl
          obtain ⟨hxn, hxd⟩ := splitOnDot_chars (rstripDots t) lab hlab x hxl
          have hxt : x ∈ t := by
            rw [hd]
            exact List.mem_append_left d hxn
          rw [List.all_eq_true] at hchar
          have hx3 := hchar x hxt
          unfold isDomainChar at hx3
          simp only [Bool.or_eq_true, decide_eq_true_eq] at hx3
          simp only [Bool.or_eq_true, decide_eq_true_eq]
          tauto
        unfold confirm_domain
        rw [if_pos hchar, hn]
        show (if c = '.' then Except.error DomErr.valueError
            else if ((splitOnDot (c :: rest)).all validToken) = true
              then Except.ok (c :: rest)
              else Except.error DomErr.valueError) = Except.error DomErr.valueError
        rw [if_neg hcdot, if_neg (by simp [hcode])]

/-- Claim C5, counterexample — the string `"a.."` has labels
`["a", "", ""]`, so by the claim's label rules (every label 1-63
characters) parsing must fail with `ValueError`; yet the constructor
accepts it, because `rstrip('.')` removes **all** trailing dots before
the labels are checked, and returns `"a"`. -/
theorem parse_label_rules_counterexample :
    claimValidDomain "a..".data = false
      ∧ FediServer.init "a.." 5 = .ok ⟨"a", 1, 5, 5⟩ := by
  exact ⟨by decide, by decide⟩

/-- Claim C5, amended — the constructor lowercases and
whitespace-strips the input, then strips **all** trailing dots; if what
remains is empty (the input was empty or all dots) it crashes with an
uncaught `IndexError` rather than `ValueError`; otherwise it succeeds
with the normalized form exactly when every remaining label satisfies
the 1-63-character alphanumeric-and-hyphen no-edge-hyphen rules, and
fails with `ValueError` when some remaining label violates them.  In
particular a string whose only violations sit in trailing empty labels
(extra trailing dots) is accepted. -/
theorem parse_label_rules (s : String) (fs : Int) :
    (rstripDots (pyStrip (pyLower s.data)) = [] →
        FediServer.init s fs = .error .indexError)
      ∧ ((splitOnDot (rstripDots (pyStrip (pyLower s.data)))).all
          specValidLabel = true →
        rstripDots (pyStrip (pyLower s.data)) ≠ [] →
        FediServer.init s fs =
          .ok ⟨String.mk (rstripDots (pyStrip (pyLower s.data))), 1, fs, fs⟩)
      ∧ ((splitOnDot (rstripDots (pyStrip (pyLower s.data)))).all
          specValidLabel = false →
        rstripDots (pyStrip (pyLower s.data)) ≠ [] →
        FediServer.init s fs = .error .valueError) := by
  refine ⟨?_, ?_, ?_⟩
  · intro h
    unfold FediServer.init
    rw [(confirm_domain_cases (pyStrip (pyLower s.data))).1 h]
  · intro hall hne
    unfold FediServer.init
    rw [(confirm_domain_cases (pyStrip (pyLower s.data))).2.1 hall hne]
  · intro hall hne
    unfold FediServer.init
    rw [(confirm_domain_cases (pyStrip (pyLower s.data))).2.2 hall hne]

theorem parse_label_rules_witness :
    FediServer.init "Example.COM." 5 = .ok ⟨"example.com", 1, 5, 5⟩
      ∧ FediServer.init "a--b.-c" 5 = .error .valueError
      ∧ FediServer.init "..." 5 = .error .indexError :=
  ⟨(parse_label_rules "Example.COM." 5).2.1 (by decide) (by decide),
    (parse_label_rules "a--b.-c" 5).2.2 (by decide) (by decide),
    (parse_label_rules "..." 5).1 (by decide)⟩

/-! ## Nodeinfo attribute walk (claim C7) -/

/-- Claim C7, counterexample — a type mismatch during the key-path walk
does **not** return `None`: walking the string key `"usage"` into a
linked document that is the JSON number `5` evaluates Python's
`'usage' in 5`, which raises an uncaught `TypeError` instead of
returning absent. -/
theorem fetch_nodeinfo_attr_counterexample :
    fetch_nodeinfo_attr
        (fun url =>
          if url = "https://d.example/.well-known/nodeinfo" then
            some (.obj [("links", .arr [.obj [("href", .str "https://d.example/ni")]])])
          else if url = "https://d.example/ni" then some (.num 5)
          else none)
        "d.example" [.str "usage"] = .error .typeError
      ∧ (Except.error .typeError : Except PyError (Option Json)) ≠ .ok none := by
  constructor
  · rfl
  · intro h
    exact Except.noConfusion h

/-- Claim C7, amended — `fetch_nodeinfo_attr` returns absent (`None`) on
a fetch or parse failure, on a missing `links` key, on a missing string
key along the path, and on an integer index past the end of a list; when
the root document is an object whose nonempty `links` list's **last**
entry is an object carrying a string `href`, it fetches that document
and walks the key path in it (string keys traverse objects, integer
keys traverse lists).  A type mismatch during the walk (for example a
string key applied to a JSON number) raises an uncaught `TypeError`
instead of returning absent. -/
theorem fetch_nodeinfo_attr_walk_spec :
    (∀ (doc : String → Option Json) (domain : String) (attr : List AKey),
        doc ("https://" ++ domain ++ "/.well-known/nodeinfo") = none →
        fetch_nodeinfo_attr doc domain attr = .ok none)
      ∧ (∀ (doc : String → Option Json) (domain : String) (attr : List AKey)
          (fields : List (String × Json)),
        doc ("https://" ++ domain ++ "/.well-known/nodeinfo") =
          some (.obj fields) →
        fields.lookup "links" = none →
        fetch_nodeinfo_attr doc domain attr = .ok none)
      ∧ (∀ (doc : String → Option Json) (domain : String) (attr : List AKey)
          (fields : List (String × Json)) (elems : List Json)
          (lfields : List (String × Json)) (url : String) (nodeinfo : Json),
        doc ("https://" ++ domain ++ "/.well-known/nodeinfo") =
          some (.obj fields) →
        fields.lookup "links" = some (.arr elems) →
        elems.getLast? = some (.obj lfields) →
        lfields.lookup "href" = some (.str url) →
        doc url = some nodeinfo →
        fetch_nodeinfo_attr doc domain attr = walkAttr nodeinfo attr)
      ∧ (∀ j : Json, walkAttr j [] = .ok (some j))
      ∧ (∀ (fields : List (String × Json)) (s : String) (rest : List AKey)
          (v : Json), fields.lookup s = some v →
        walkAttr (.obj fields) (.str s :: rest) = walkAttr v rest)
      ∧ (∀ (fields : List (String × Json)) (s : String) (rest : List AKey),
        fields.lookup s = none →
        walkAttr (.obj fields) (.str s :: rest) = .ok none)
      ∧ (∀ (elems : List Json) (n : Int) (rest : List AKey),
        (elems.length : Int) ≤ n →
        walkAttr (.arr elems) (.int n :: rest) = .ok none)
      ∧ (∀ (elems : List Json) (n : Int) (rest : List AKey) (x : Json),
        0 ≤ n → elems.get? n.toNat = some x →
        walkAttr (.arr elems) (.int n :: rest) = walkAttr x rest)
      ∧ (∀ (m : Int) (s : String) (rest : List AKey),
        walkAttr (.num m) (.str s :: rest) = .error .typeError) := by
  refine ⟨?_, ?_, ?_, ?_, ?_, ?_, ?_, ?_, ?_⟩
  · intro doc domain attr h
    simp only [fetch_nodeinfo_attr, h]
  · intro doc domain attr fields h hlk
    simp only [fetch_nodeinfo_attr, h, getStrKey, hlk]
  · intro doc domain attr fields elems lfields url nodeinfo h1 h2 h3 h4 h5
    simp only [fetch_nodeinfo_attr, getStrKey, h1, h2, h3, h4, h5]
  · intro j
    rfl
  · intro fields s rest v h
    simp only [walkAttr, getStrKey, h]
  · intro fields s rest h
    simp only [walkAttr, getStrKey, h]
  · intro elems n rest h
    simp only [walkAttr]
    rw [if_neg (by omega)]
  · intro elems n rest x hn hx
    have hlt : n < (elems.length : Int) := by
      have := (List.get?_eq_some.mp hx).1
      omega
    simp only [walkAttr]
    rw [if_pos hlt]
    unfold pyIndex
    rw [if_pos hn, hx]
  · intro m s rest
    simp only [walkAttr, getStrKey]

theorem fetch_nodeinfo_attr_walk_spec_witness :
    fetch_nodeinfo_attr (fun _ => none) "d.example" [] = .ok none
      ∧ walkAttr (.obj [("a", .num 3)]) [.str "a"] = .ok (some (.num 3))
      ∧ walkAttr (.arr [.num 1]) [.int 5] = .ok none := by
  refine ⟨fetch_nodeinfo_attr_walk_spec.1 (fun _ => none) "d.example" [] rfl,
    ?_, ?_⟩
  · rw [fetch_nodeinfo_attr_walk_spec.2.2.2.2.1 [("a", .num 3)] "a" []
      (.num 3) rfl]
    exact fetch_nodeinfo_attr_walk_spec.2.2.2.1 (.num 3)
  · exact fetch_nodeinfo_attr_walk_spec.2.2.2.2.2.2.1 [.num 1] 5 []
      (by decide)

theorem merge_registries_union_first_wins_witness :
    (merge_registries [("a.example", ⟨"a.example", 1, 1, 1⟩)]
        [("b.example", ⟨"b.example", 4, 2, 9⟩)]).lookup "b.example" =
      some ⟨"b.example", 4, 2, 9⟩ := by
  have h := (merge_registries_union_first_wins
    [("a.example", ⟨"a.example", 1, 1, 1⟩)]
    [("b.example", ⟨"b.example", 4, 2, 9⟩)] "b.example").2.2 (by decide)
  rw [h]
  decide

/-! ## Categorization tally (claim C4): selection-loop lemmas -/

theorem findLargest_mem (l : List (String × Nat)) :
    ∀ best, findLargest best l ∈ best :: l := by
  induction l with
  | nil => intro best; simp [findLargest]
  | cons a t ih =>
    intro best
    have heq : findLargest best (a :: t) =
        findLargest (if a.2 > best.2 then a else best) t := rfl
    rw [heq]
    rcases List.mem_cons.mp (ih (if a.2 > best.2 then a else best)) with h | h
    · rw [h]
      by_cases hgt : a.2 > best.2
      · rw [if_pos hgt]
        exact List.mem_cons_of_mem _ (List.mem_cons_self a t)
      · rw [if_neg hgt]
        exact List.mem_cons_self _ _
    · exact List.mem_cons_of_mem _ (List.mem_cons_of_mem _ h)

theorem findLargest_le (l : List (String × Nat)) :
    ∀ best p, p ∈ best :: l → p.2 ≤ (findLargest best l).2 := by
  induction l with
  | nil =>
    intro best p hp
    rcases List.mem_cons.mp hp with h | h
    · rw [h]; exact le_refl _
    · simp at h
  | cons a t ih =>
    intro best p hp
    have heq : findLargest best (a :: t) =
        findLargest (if a.2 > best.2 then a else best) t := rfl
    rw [heq]
    have hb : best.2 ≤ (if a.2 > best.2 then a else best).2
        ∧ a.2 ≤ (if a.2 > best.2 then a else best).2 := by
      by_cases hgt : a.2 > best.2
      · rw [if_pos hgt]; exact ⟨le_of_lt hgt, le_refl _⟩
      · rw [if_neg hgt]; exact ⟨le_refl _, by omega⟩
    have hself := ih (if a.2 > best.2 then a else best)
      (if a.2 > best.2 then a else best) (List.mem_cons_self _ _)
    rcases List.mem_cons.mp hp with h | h
    · rw [h]; exact le_trans hb.1 hself
    · rcases List.mem_cons.mp h with h1 | h1
      · rw [h1]; exact le_trans hb.2 hself
      · exact ih _ p (List.mem_cons_of_mem _ h1)

theorem findLargest_first (l : List (String × Nat)) :
    ∀ best, ∃ l1 l2, best :: l = l1 ++ (findLargest best l) :: l2
      ∧ ∀ p ∈ l1, p.2 < (findLargest best l).2 := by
  induction l with
  | nil =>
    intro best
    refine ⟨[], [], ?_, by simp⟩
    simp [findLargest]
  | cons a t ih =>
    intro best
    have heq : findLargest best (a :: t) =
        findLargest (if a.2 > best.2 then a else best) t := rfl
    by_cases hgt : a.2 > best.2
    · have heqa : findLargest best (a :: t) = findLargest a t := by
        rw [heq, if_pos hgt]
      obtain ⟨m1, m2, hm, hlt⟩ := ih a
      refine ⟨best :: m1, m2, ?_, ?_⟩
      · rw [heqa, List.cons_append, ← hm]
      · intro p hp
        rw [heqa]
        rcases List.mem_cons.mp hp with h | h
        · rw [h]
          exact lt_of_lt_of_le hgt
            (findLargest_le t a a (List.mem_cons_self a t))
        · exact hlt p h
    · have heqb : findLargest best (a :: t) = findLargest best t := by
        rw [heq, if_neg hgt]
      obtain ⟨m1, m2, hm, hlt⟩ := ih best
      cases m1 with
      | nil =>
        simp only [List.nil_append] at hm
        injection hm with h1 h2
        refine ⟨[], a :: t, ?_, by simp⟩
        rw [List.nil_append, heqb, ← h1]
      | cons c m1' =>
        rw [List.cons_append] at hm
        injection hm with h1 h2
        have hblt : best.2 < (findLargest best t).2 := by
          have := hlt c (List.mem_cons_self c m1')
          rw [← h1] at this
          exact this
        refine ⟨best :: a :: m1', m2, ?_, ?_⟩
        · rw [heqb, List.cons_append, List.cons_append, ← h2]
        · intro p hp
          rw [heqb]
          rcases List.mem_cons.mp hp with h | h
          · rw [h]; exact hblt
          · rcases List.mem_cons.mp h with h3 | h3
            · rw [h3]; omega
            · exact hlt p (List.mem_cons_of_mem c h3)

theorem removeKey_length (k : String) :
    ∀ (l : List (String × Nat)) (p : String × Nat), p ∈ l → p.1 = k →
      (removeKey k l).length + 1 = l.length := by
  intro l
  induction l with
  | nil => intro p hp _; simp at hp
  | cons a t ih =>
    intro p hp hpk
    by_cases hak : a.1 = k
    · unfold removeKey; rw [if_pos hak]; simp
    · unfold removeKey; rw [if_neg hak]
      have hpt : p ∈ t := by
        rcases List.mem_cons.mp hp with h | h
        · exact absurd (by rw [← h]; exact hpk) hak
        · exact h
      have := ih p hpt hpk
      simp only [List.length_cons]
      omega

theorem removeKey_sublist (k : String) :
    ∀ l : List (String × Nat), List.Sublist (removeKey k l) l := by
  intro l
  induction l with
  | nil => exact List.Sublist.slnil
  | cons a t ih =>
    unfold removeKey
    by_cases hak : a.1 = k
    · rw [if_pos hak]
      exact List.Sublist.cons a (List.Sublist.refl t)
    · rw [if_neg hak]
      exact List.Sublist.cons₂ a ih

theorem removeKey_mem (k : String) :
    ∀ (l : List (String × Nat)) (p : String × Nat), p ∈ l → ¬(p.1 = k) →
      p ∈ removeKey k l := by
  intro l
  induction l with
  | nil => intro p hp _; simp at hp
  | cons a t ih =>
    intro p hp hpk
    unfold removeKey
    by_cases hak : a.1 = k
    · rcases List.mem_cons.mp hp with h | h
      · exact absurd (by rw [← h] at hak; exact hak) hpk
      · rw [if_pos hak]; exact h
    · rw [if_neg hak]
      rcases List.mem_cons.mp hp with h | h
      · rw [h]; exact List.mem_cons_self a _
      · exact List.mem_cons_of_mem a (ih p h hpk)

theorem removeKey_perm :
    ∀ (l : List (String × Nat)) (lg : String × Nat),
      (l.map Prod.fst).Nodup → lg ∈ l →
      List.Perm l (lg :: removeKey lg.1 l) := by
  intro l
  induction l with
  | nil => intro lg _ h; simp at h
  | cons a t ih =>
    intro lg hnd hlg
    have hnd' : (t.map Prod.fst).Nodup := by
      simp only [List.map_cons, List.nodup_cons] at hnd
      exact hnd.2
    have hnda : ¬(a.1 ∈ t.map Prod.fst) := by
      simp only [List.map_cons, List.nodup_cons] at hnd
      exact hnd.1
    by_cases hak : a.1 = lg.1
    · have halg : a = lg := by
        rcases List.mem_cons.mp hlg with h | h
        · exact h.symm
        · exfalso
          apply hnda
          rw [hak]
          exact List.mem_map_of_mem Prod.fst h
      unfold removeKey
      rw [if_pos hak, ← halg]
    · have hlgt : lg ∈ t := by
        rcases List.mem_cons.mp hlg with h | h
        · exact absurd (by rw [h]) hak
        · exact h
      unfold removeKey
      rw [if_neg hak]
      exact List.Perm.trans (List.Perm.cons a (ih lg hnd' hlgt))
        (List.Perm.swap lg a (removeKey lg.1 t))

theorem removeKey_pair_sub (k : String) :
    ∀ (l : List (String × Nat)) (p q : String × Nat),
      List.Sublist [p, q] l → ¬(p.1 = k) → ¬(q.1 = k) →
      List.Sublist [p, q] (removeKey k l) := by
  intro l
  induction l with
  | nil =>
    intro p q h _ _
    exact absurd (List.Sublist.length_le h) (by simp)
  | cons a t ih =>
    intro p q h hp hq
    unfold removeKey
    by_cases hak : a.1 = k
    · rw [if_pos hak]
      cases h with
      | cons _ h' => exact h'
      | cons₂ _ h' => exact absurd hak hp
    · rw [if_neg hak]
      cases h with
      | cons _ h' => exact List.Sublist.cons a (ih p q h' hp hq)
      | cons₂ _ h' =>
        refine List.Sublist.cons₂ a ?_
        rw [List.singleton_sublist] at h' ⊢
        exact removeKey_mem k t q h' hq

theorem keys_nodup_inj (l : List (String × Nat)) (p q : String × Nat)
    (hnd : (l.map Prod.fst).Nodup) (hp : p ∈ l) (hq : q ∈ l)
    (hk : p.1 = q.1) : p = q :=
  List.inj_on_of_nodup_map hnd hp hq hk

theorem mem_left_of_pair_sublist :
    ∀ (l1 l2 : List (String × Nat)) (p q : String × Nat), ¬(p = q) →
      ¬(q ∈ l1) → ¬(q ∈ l2) → List.Sublist [p, q] (l1 ++ q :: l2) →
      p ∈ l1 := by
  intro l1
  induction l1 with
  | nil =>
    intro l2 p q hpq hq1 hq2 h
    exfalso
    simp only [List.nil_append] at h
    cases h with
    | cons _ h' => exact hq2 (h'.subset (by simp))
    | cons₂ _ h' => exact hpq rfl
  | cons a l1' ih =>
    intro l2 p q hpq hq1 hq2 h
    rw [List.cons_append] at h
    cases h with
    | cons _ h' =>
      have hq1' : ¬(q ∈ l1') := fun hh => hq1 (List.mem_cons_of_mem a hh)
      exact List.mem_cons_of_mem a (ih l2 p q hpq hq1' hq2 h')
    | cons₂ _ h' => exact List.mem_cons_self _ _

theorem sortSums_loop_perm :
    ∀ (n : Nat) (l : List (String × Nat)), n = l.length →
      (l.map Prod.fst).Nodup → List.Perm (sortSums_loop n l) l := by
  intro n
  induction n with
  | zero =>
    intro l hn _
    have hl : l = [] := List.length_eq_zero.mp hn.symm
    subst hl
    exact List.Perm.refl _
  | succ m ih =>
    intro l hn hnd
    cases l with
    | nil => simp at hn
    | cons x xs =>
      have heq : sortSums_loop (m + 1) (x :: xs) =
          (findLargest x xs) ::
            sortSums_loop m (removeKey (findLargest x xs).1 (x :: xs)) := rfl
      have hmem : findLargest x xs ∈ x :: xs := findLargest_mem xs x
      have hlen := removeKey_length (findLargest x xs).1 (x :: xs)
        (findLargest x xs) hmem rfl
      have hnd' : ((removeKey (findLargest x xs).1 (x :: xs)).map
          Prod.fst).Nodup :=
        hnd.sublist ((removeKey_sublist (findLargest x xs).1 (x :: xs)).map
          Prod.fst)
      have hm : m = (removeKey (findLargest x xs).1 (x :: xs)).length := by
        simp only [List.length_cons] at hn hlen
        omega
      rw [heq]
      exact List.Perm.trans
        (List.Perm.cons (findLargest x xs)
          (ih (removeKey (findLargest x xs).1 (x :: xs)) hm hnd'))
        (removeKey_perm (x :: xs) (findLargest x xs) hnd hmem).symm

theorem sortSums_loop_sorted :
    ∀ (n : Nat) (l : List (String × Nat)), n = l.length →
      (l.map Prod.fst).Nodup →
      (sortSums_loop n l).Pairwise (fun a b => b.2 ≤ a.2) := by
  intro n
  induction n with
  | zero => intro l _ _; exact List.Pairwise.nil
  | succ m ih =>
    intro l hn hnd
    cases l with
    | nil => simp at hn
    | cons x xs =>
      have heq : sortSums_loop (m + 1) (x :: xs) =
          (findLargest x xs) ::
            sortSums_loop m (removeKey (findLargest x xs).1 (x :: xs)) := rfl
      have hmem : findLargest x xs ∈ x :: xs := findLargest_mem xs x
      have hlen := removeKey_length (findLargest x xs).1 (x :: xs)
        (findLargest x xs) hmem rfl
      have hnd' : ((removeKey (findLargest x xs).1 (x :: xs)).map
          Prod.fst).Nodup :=
        hnd.sublist ((removeKey_sublist (findLargest x xs).1 (x :: xs)).map
          Prod.fst)
      have hm : m = (removeKey (findLargest x xs).1 (x :: xs)).length := by
        simp only [List.length_cons] at hn hlen
        omega
      rw [heq, List.pairwise_cons]
      constructor
      · intro b hb
        have hb1 : b ∈ removeKey (findLargest x xs).1 (x :: xs) :=
          (sortSums_loop_perm m _ hm hnd').mem_iff.mp hb
        have hb2 : b ∈ x :: xs :=
          (removeKey_sublist (findLargest x xs).1 (x :: xs)).subset hb1
        exact findLargest_le xs x b hb2
      · exact ih _ hm hnd'

theorem sortSums_loop_stable :
    ∀ (n : Nat) (l : List (String × Nat)) (p q : String × Nat),
      n = l.length → (l.map Prod.fst).Nodup → List.Sublist [p, q] l →
      p.2 = q.2 → List.Sublist [p, q] (sortSums_loop n l) := by
  intro n
  induction n with
  | zero =>
    intro l p q hn _ hsub _
    have hl : l = [] := List.length_eq_zero.mp hn.symm
    subst hl
    exact absurd (List.Sublist.length_le hsub) (by simp)
  | succ m ih =>
    intro l p q hn hnd hsub hpq
    cases l with
    | nil => simp at hn
    | cons x xs =>
      have heq : sortSums_loop (m + 1) (x :: xs) =
          (findLargest x xs) ::
            sortSums_loop m (removeKey (findLargest x xs).1 (x :: xs)) := rfl
      have hmem : findLargest x xs ∈ x :: xs := findLargest_mem xs x
      have hlen := removeKey_length (findLargest x xs).1 (x :: xs)
        (findLargest x xs) hmem rfl
      have hnd' : ((removeKey (findLargest x xs).1 (x :: xs)).map
          Prod.fst).Nodup :=
        hnd.sublist ((removeKey_sublist (findLargest x xs).1 (x :: xs)).map
          Prod.fst)
      have hm : m = (removeKey (findLargest x xs).1 (x :: xs)).length := by
        simp only [List.length_cons] at hn hlen
        omega
      have hndl : (x :: xs).Nodup := hnd.of_map Prod.fst
      have hpmem : p ∈ x :: xs := hsub.subset (by simp)
      have hqmem : q ∈ x :: xs := hsub.subset (by simp)
      have hpq_ne : ¬(p = q) := by
        have h2 := hndl.sublist hsub
        have h3 := (List.nodup_cons.mp h2).1
        simpa using h3
      have hq_ne_lg : ¬(q = findLargest x xs) := by
        intro hcontra
        obtain ⟨l1, l2, hdecomp, hlt⟩ := findLargest_first xs x
        have hndl' : (l1 ++ (findLargest x xs) :: l2).Nodup := by
          rw [← hdecomp]; exact hndl
        obtain ⟨hnd1, hnd2, hdisj⟩ := List.nodup_append.mp hndl'
        have hq_not_l1 : ¬(findLargest x xs ∈ l1) := fun hh =>
          hdisj hh (List.mem_cons_self _ _)
        have hq_not_l2 : ¬(findLargest x xs ∈ l2) :=
          (List.nodup_cons.mp hnd2).1
        have hsub' : List.Sublist [p, findLargest x xs]
            (l1 ++ (findLargest x xs) :: l2) := by
          rw [← hdecomp, ← hcontra]; exact hsub
        have hp_l1 : p ∈ l1 := mem_left_of_pair_sublist l1 l2 p
          (findLargest x xs) (by rw [← hcontra]; exact hpq_ne)
          hq_not_l1 hq_not_l2 hsub'
        have hplt := hlt p hp_l1
        rw [hpq, hcontra] at hplt
        omega
      by_cases hp_lg : p = findLargest x xs
      · subst hp_lg
        rw [heq]
        apply List.Sublist.cons₂
        rw [List.singleton_sublist]
        have hq_key : ¬(q.1 = (findLargest x xs).1) := fun hk =>
          hq_ne_lg (keys_nodup_inj (x :: xs) q (findLargest x xs) hnd
            hqmem hmem hk)
        have hq_rest := removeKey_mem (findLargest x xs).1 (x :: xs) q
          hqmem hq_key
        exact (sortSums_loop_perm m _ hm hnd').mem_iff.mpr hq_rest
      · have hp_key : ¬(p.1 = (findLargest x xs).1) := fun hk =>
          hp_lg (keys_nodup_inj (x :: xs) p (findLargest x xs) hnd
            hpmem hmem hk)
        have hq_key : ¬(q.1 = (findLargest x xs).1) := fun hk =>
          hq_ne_lg (keys_nodup_inj (x :: xs) q (findLargest x xs) hnd
            hqmem hmem hk)
        have hsub' := removeKey_pair_sub (findLargest x xs).1 (x :: xs) p q
          hsub hp_key hq_key
        rw [heq]
        exact List.Sublist.cons (findLargest x xs)
          (ih (removeKey (findLargest x xs).1 (x :: xs)) p q hm hnd'
            hsub' hpq)

/-! ## Categorization tally (claim C4): tally lemmas and the main theorem -/

theorem sumCounts_cons (k : String) (n : Nat) (l : List (String × Nat)) :
    sumCounts ((k, n) :: l) = n + sumCounts l := by
  simp [sumCounts]

theorem sumCounts_bump (l : List (String × Nat)) (s : String) :
    sumCounts (bump l s) = sumCounts l + 1 := by
  induction l with
  | nil => rfl
  | cons a t ih =>
    obtain ⟨k, n⟩ := a
    unfold bump
    by_cases h : k = s
    · rw [if_pos h, sumCounts_cons, sumCounts_cons]
      omega
    · rw [if_neg h, sumCounts_cons, sumCounts_cons, ih]
      omega

theorem keys_bump (l : List (String × Nat)) (s x : String) :
    x ∈ (bump l s).map Prod.fst ↔ x ∈ l.map Prod.fst ∨ x = s := by
  induction l with
  | nil => simp [bump]
  | cons a t ih =>
    obtain ⟨k, n⟩ := a
    unfold bump
    by_cases h : k = s
    · rw [if_pos h]
      simp only [List.map_cons, List.mem_cons]
      constructor
      · intro hc
        rcases hc with hc | hc
        · exact Or.inl (Or.inl hc)
        · exact Or.inl (Or.inr hc)
      · intro hc
        rcases hc with (hc | hc) | hc
        · exact Or.inl hc
        · exact Or.inr hc
        · rw [hc, ← h]; exact Or.inl rfl
    · rw [if_neg h]
      simp only [List.map_cons, List.mem_cons, ih]
      tauto

theorem keysNodup_bump (l : List (String × Nat)) (s : String)
    (h : (l.map Prod.fst).Nodup) : ((bump l s).map Prod.fst).Nodup := by
  induction l with
  | nil => simp [bump]
  | cons a t ih =>
    obtain ⟨k, n⟩ := a
    simp only [List.map_cons, List.nodup_cons] at h
    unfold bump
    by_cases hks : k = s
    · rw [if_pos hks]
      simp only [List.map_cons, List.nodup_cons]
      exact h
    · rw [if_neg hks]
      simp only [List.map_cons, List.nodup_cons]
      refine ⟨?_, ih h.2⟩
      intro hmem
      rcases (keys_bump t s k).mp hmem with hc | hc
      · exact h.1 hc
      · exact hks hc

theorem tally_keysNodup (results : List String) :
    ((tally results).map Prod.fst).Nodup := by
  have haux : ∀ (rs : List String) (acc : List (String × Nat)),
      (acc.map Prod.fst).Nodup → ((rs.foldl bump acc).map Prod.fst).Nodup := by
    intro rs
    induction rs with
    | nil => intro acc h; exact h
    | cons r t ih => intro acc h; exact ih (bump acc r) (keysNodup_bump acc r h)
  exact haux results [] (by simp)

theorem sumCounts_tally (results : List String) :
    sumCounts (tally results) = results.length := by
  have haux : ∀ (rs : List String) (acc : List (String × Nat)),
      sumCounts (rs.foldl bump acc) = sumCounts acc + rs.length := by
    intro rs
    induction rs with
    | nil => intro acc; simp
    | cons r t ih =>
      intro acc
      simp only [List.foldl_cons, List.length_cons]
      rw [ih (bump acc r), sumCounts_bump]
      omega
  have h := haux results []
  unfold tally
  rw [h]
  simp [sumCounts]

theorem sumCounts_perm (l1 l2 : List (String × Nat))
    (h : List.Perm l1 l2) : sumCounts l1 = sumCounts l2 :=
  (h.map Prod.snd).sum_eq

theorem orOther_fold (o : Option String) :
    orOther (some (orOther o)) = orOther o := by
  cases o with
  | none => rfl
  | some s =>
    by_cases h : s = ""
    · subst h; rfl
    · have h1 : orOther (some s) = s := by
        show (if s = "" then "Other" else s) = s
        rw [if_neg h]
      rw [h1]
      exact h1

theorem odAssign_append :
    ∀ (rv : List (String × Nat)) (key : String) (val : Nat),
      ¬(key ∈ rv.map Prod.fst) → odAssign rv key val = rv ++ [(key, val)] := by
  intro rv
  induction rv with
  | nil => intro key val _; rfl
  | cons a rest ih =>
    intro key val hk
    obtain ⟨k, v⟩ := a
    simp only [List.map_cons, List.mem_cons] at hk
    push_neg at hk
    unfold odAssign
    rw [if_neg (fun h => hk.1 h.symm), List.cons_append, ih key val hk.2]

theorem foldl_odAssign :
    ∀ (l rv : List (String × Nat)),
      (l.map Prod.fst).Nodup →
      (∀ x, x ∈ l.map Prod.fst → ¬(x ∈ rv.map Prod.fst)) →
      l.foldl (fun acc p => odAssign acc p.1 p.2) rv = rv ++ l := by
  intro l
  induction l with
  | nil => intro rv _ _; simp
  | cons p t ih =>
    intro rv hnd hdisj
    simp only [List.map_cons, List.nodup_cons] at hnd
    have hp_not : ¬(p.1 ∈ rv.map Prod.fst) := hdisj p.1 (by simp)
    have hdisj' : ∀ x, x ∈ t.map Prod.fst →
        ¬(x ∈ (rv ++ [(p.1, p.2)]).map Prod.fst) := by
      intro x hx hmem
      rw [List.map_append] at hmem
      rcases List.mem_append.mp hmem with h | h
      · exact hdisj x (by simp [hx]) h
      · simp only [List.map_cons, List.map_nil, List.mem_singleton] at h
        rw [h] at hx
        exact hnd.1 hx
    simp only [List.foldl_cons]
    rw [odAssign_append rv p.1 p.2 hp_not]
    rw [ih (rv ++ [(p.1, p.2)]) hnd.2 hdisj']
    rw [List.append_assoc]
    simp

theorem tally_keys_sub :
    ∀ (rs : List String) (acc : List (String × Nat)) (x : String),
      x ∈ (rs.foldl bump acc).map Prod.fst →
      x ∈ acc.map Prod.fst ∨ x ∈ rs := by
  intro rs
  induction rs with
  | nil => intro acc x h; exact Or.inl h
  | cons r t ih =>
    intro acc x h
    simp only [List.foldl_cons] at h
    rcases ih (bump acc r) x h with h1 | h1
    · rcases (keys_bump acc r x).mp h1 with h2 | h2
      · exact Or.inl h2
      · exact Or.inr (by rw [h2]; exact List.mem_cons_self r t)
    · exact Or.inr (List.mem_cons_of_mem r h1)

/-- When no bucket is literally named `'Total'`, the assignment loop of
`perform_cat` never collides with the reserved entry and the output is
the `'Total'` entry followed by the sorted buckets. -/
theorem perform_cat_eq_cons (cat : String → Option String)
    (instances : List FediServer)
    (hno : ¬("Total" ∈ instances.map (fun ins => orOther (cat ins.domain)))) :
    perform_cat cat instances =
      ("Total", (instances.map (fun ins => orOther (cat ins.domain))).length)
        :: sortSums (tally (instances.map (fun ins => orOther (cat ins.domain)))) := by
  have hnd_tally :=
    tally_keysNodup (instances.map (fun ins => orOther (cat ins.domain)))
  have hperm : List.Perm
      (sortSums (tally (instances.map (fun ins => orOther (cat ins.domain)))))
      (tally (instances.map (fun ins => orOther (cat ins.domain)))) :=
    sortSums_loop_perm _ _ rfl hnd_tally
  have hnd_sorted : ((sortSums (tally (instances.map
      (fun ins => orOther (cat ins.domain))))).map Prod.fst).Nodup :=
    ((hperm.map Prod.fst).nodup_iff).mpr hnd_tally
  have hdisj : ∀ x, x ∈ (sortSums (tally (instances.map
      (fun ins => orOther (cat ins.domain))))).map Prod.fst →
      ¬(x ∈ ([("Total",
        (instances.map (fun ins => orOther (cat ins.domain))).length)] :
          List (String × Nat)).map Prod.fst) := by
    intro x hx hmem
    simp only [List.map_cons, List.map_nil, List.mem_singleton] at hmem
    have hx2 : x ∈ (tally (instances.map
        (fun ins => orOther (cat ins.domain)))).map Prod.fst :=
      (hperm.map Prod.fst).mem_iff.mp hx
    unfold tally at hx2
    rcases tally_keys_sub (instances.map (fun ins => orOther (cat ins.domain)))
        [] x hx2 with h | h
    · simp at h
    · rw [hmem] at h
      exact hno h
  show (sortSums (tally (instances.map
      (fun ins => orOther (cat ins.domain))))).foldl
      (fun rv p => odAssign rv p.1 p.2)
      [("Total", (instances.map (fun ins => orOther (cat ins.domain))).length)]
    = _
  rw [foldl_odAssign _ _ hnd_sorted hdisj]
  rfl

/-- Claim C4, counterexample — when the categorization function returns
the string `'Total'` for one of two hosts, the selection loop's
`rv[largest] = sums.pop(largest)` overwrites the reserved `'Total'`
entry in place: the output's `Total` entry is 1 (that bucket's count),
not the host count 2, and the non-`Total` buckets sum to 1, not 2. -/
theorem perform_cat_total_counterexample :
    perform_cat (fun d => if d = "a.x" then some "x" else some "Total")
        [⟨"a.x", 1, 0, 0⟩, ⟨"b.x", 1, 0, 0⟩] = [("Total", 1), ("x", 1)]
      ∧ ¬((1 : Nat) = 2) := by
  exact ⟨by decide, by decide⟩

/-- Claim C4, amended — provided no category result is literally the
string `'Total'` (a result bucket named `'Total'` overwrites the
reserved entry in place), `perform_cat` folds a `None` category result
into the fixed `'Other'` bucket (replacing the category function by its
explicitly `'Other'`-folded version does not change the output), its
head is the `'Total'` entry equal to the input host count, the
remaining buckets sum to that same count, and they are ordered by
descending count with ties broken by the first-encountered category
(any two equal-count buckets keep the relative order they have in the
insertion-ordered tally). -/
theorem perform_cat_tally_spec (cat : String → Option String)
    (instances : List FediServer)
    (hno : ¬("Total" ∈ instances.map (fun ins => orOther (cat ins.domain)))) :
    (perform_cat cat instances).head? = some ("Total", instances.length)
      ∧ sumCounts (perform_cat cat instances).tail = instances.length
      ∧ (perform_cat cat instances).tail.Pairwise (fun a b => b.2 ≤ a.2)
      ∧ (∀ p q, List.Sublist [p, q]
          (tally (instances.map (fun ins => orOther (cat ins.domain)))) →
        p.2 = q.2 →
        List.Sublist [p, q] (perform_cat cat instances).tail)
      ∧ perform_cat cat instances =
        perform_cat (fun d => some (orOther (cat d))) instances := by
  have heq := perform_cat_eq_cons cat instances hno
  have hnd := tally_keysNodup
    (instances.map (fun ins => orOther (cat ins.domain)))
  refine ⟨?_, ?_, ?_, ?_, ?_⟩
  · rw [heq]
    show some ("Total",
        (instances.map (fun ins => orOther (cat ins.domain))).length) =
      some ("Total", instances.length)
    rw [List.length_map]
  · rw [heq]
    show sumCounts (sortSums (tally (instances.map
        (fun ins => orOther (cat ins.domain))))) = instances.length
    unfold sortSums
    rw [sumCounts_perm _ _ (sortSums_loop_perm _ _ rfl hnd)]
    rw [sumCounts_tally, List.length_map]
  · rw [heq]
    exact sortSums_loop_sorted _ _ rfl hnd
  · intro p q hsub hpq
    rw [heq]
    exact sortSums_loop_stable _ _ p q rfl hnd hsub hpq
  · unfold perform_cat
    have hmap : instances.map
          (fun ins => orOther ((fun d => some (orOther (cat d))) ins.domain)) =
        instances.map (fun ins => orOther (cat ins.domain)) :=
      List.map_congr_left (fun ins _ => orOther_fold (cat ins.domain))
    rw [hmap]

theorem perform_cat_tally_spec_witness :
    List.Sublist [(("even" : String), 1), (("Other" : String), 1)]
      (perform_cat
        (fun d => if d = "b.x" then some "even"
          else if d = "d.x" then none else some "odd")
        [⟨"a.x", 1, 0, 0⟩, ⟨"b.x", 1, 0, 0⟩, ⟨"c.x", 1, 0, 0⟩,
          ⟨"d.x", 1, 0, 0⟩]).tail :=
  (perform_cat_tally_spec
    (fun d => if d = "b.x" then some "even"
      else if d = "d.x" then none else some "odd")
    [⟨"a.x", 1, 0, 0⟩, ⟨"b.x", 1, 0, 0⟩, ⟨"c.x", 1, 0, 0⟩,
      ⟨"d.x", 1, 0, 0⟩] (by decide)).2.2.2.1
    ("even", 1) ("Other", 1) (by decide) rfl

end Fediscripts
